import Mathlib

/-!
Verification of the cashflow-binning logic of the `Bonds` space in the
`BasicBonds` model (`lifelib_modelx/assets/BasicBonds/Bonds/__init__.py`).

Dates are modelled as year/month/day triples ordered lexicographically.
`addYear` embeds QuantLib's `Date + Period('1Y')`: same month and day in
the next year, with the day clamped to the target month length
(so Feb 29 + 1Y = Feb 28).  Cashflow amounts are modelled as rationals.
The ordering assertion in `cashflows` is modelled by an `Except.error ()`
result; `redemptions`, which performs no such check in the source, is a
total function returning a plain list.
-/

namespace BasicBonds

/-- A calendar date (year, month, day). -/
structure Date where
  y : Nat
  m : Nat
  d : Nat
deriving DecidableEq, Repr

/-- `a <= b` on dates, lexicographic on (year, month, day); the embedding
of QuantLib's date comparison used by the source. -/
def Date.ble (a b : Date) : Bool :=
  decide (a.y < b.y ∨ (a.y = b.y ∧ (a.m < b.m ∨ (a.m = b.m ∧ a.d ≤ b.d))))

/-- `a < b` on dates. -/
def Date.blt (a b : Date) : Bool := !(Date.ble b a)

theorem Date.ble_iff (a b : Date) :
    Date.ble a b = true ↔
      a.y < b.y ∨ (a.y = b.y ∧ (a.m < b.m ∨ (a.m = b.m ∧ a.d ≤ b.d))) := by
  simp [Date.ble]

theorem Date.blt_iff (a b : Date) :
    Date.blt a b = true ↔
      ¬ (b.y < a.y ∨ (b.y = a.y ∧ (b.m < a.m ∨ (b.m = a.m ∧ b.d ≤ a.d)))) := by
  simp only [Date.blt, Date.ble, Bool.not_eq_true', decide_eq_false_iff_not]

theorem Date.blt_eq_false_iff (a b : Date) :
    Date.blt a b = false ↔ Date.ble b a = true := by
  simp [Date.blt]

theorem Date.ble_refl (a : Date) : Date.ble a a = true := by
  rw [Date.ble_iff]; omega

theorem Date.ble_trans {a b c : Date} (h1 : Date.ble a b = true)
    (h2 : Date.ble b c = true) : Date.ble a c = true := by
  rw [Date.ble_iff] at h1 h2 ⊢; omega

theorem Date.ble_of_blt {a b : Date} (h : Date.blt a b = true) :
    Date.ble a b = true := by
  rw [Date.blt_iff] at h; rw [Date.ble_iff]; omega

theorem Date.blt_of_blt_of_ble {a b c : Date} (h1 : Date.blt a b = true)
    (h2 : Date.ble b c = true) : Date.blt a c = true := by
  rw [Date.blt_iff] at h1 ⊢; rw [Date.ble_iff] at h2; omega

theorem Date.blt_of_ble_of_blt {a b c : Date} (h1 : Date.ble a b = true)
    (h2 : Date.blt b c = true) : Date.blt a c = true := by
  rw [Date.blt_iff] at h2 ⊢; rw [Date.ble_iff] at h1; omega

theorem Date.blt_ble_absurd {a b : Date} (h1 : Date.blt a b = true)
    (h2 : Date.ble b a = true) : False := by
  rw [Date.blt_iff] at h1; rw [Date.ble_iff] at h2; omega

/-- Whether `y` is a leap year (Gregorian rule). -/
def isLeapYear (y : Nat) : Bool :=
  (y % 4 == 0 && y % 100 != 0) || y % 400 == 0

/-- Number of days in month `m` of year `y`. -/
def daysInMonth (y m : Nat) : Nat :=
  if m = 2 then (if isLeapYear y then 29 else 28)
  else if m = 4 ∨ m = 6 ∨ m = 9 ∨ m = 11 then 30
  else 31

/-- Embedding of `+ ql.Period('1Y')`: same month and day in the next
year, the day clamped to the target month's length (Feb 29 -> Feb 28). -/
def addYear (a : Date) : Date :=
  ⟨a.y + 1, a.m, min a.d (daysInMonth (a.y + 1) a.m)⟩

theorem blt_addYear (d : Date) : Date.blt d (addYear d) = true := by
  rw [Date.blt_iff]; simp only [addYear]; omega

theorem ble_addYear (d : Date) : Date.ble d (addYear d) = true :=
  Date.ble_of_blt (blt_addYear d)

/-- `date_(i)` from the source: the date at projection step `i`;
`date_(0)` is the valuation date and each later step adds one year. -/
def date_ (dInit : Date) : Nat → Date
  | 0 => dInit
  | i + 1 => addYear (date_ dInit i)

theorem date_shift (dInit : Date) (k : Nat) :
    date_ dInit (k + 1) = date_ (addYear dInit) k := by
  induction k with
  | zero => rfl
  | succ k ih =>
      show addYear (date_ dInit (k + 1)) = addYear (date_ (addYear dInit) k)
      rw [ih]

theorem date_mono_succ (dInit : Date) (t : Nat) :
    Date.blt (date_ dInit t) (date_ dInit (t + 1)) = true := by
  simp only [date_]; exact blt_addYear _

theorem date_mono_le (dInit : Date) (t m : Nat) :
    Date.ble (date_ dInit t) (date_ dInit (t + m)) = true := by
  induction m with
  | zero => exact Date.ble_refl _
  | succ m ih =>
      exact Date.ble_trans ih (Date.ble_of_blt (date_mono_succ dInit (t + m)))

/-- The unbounded `while` loop in `step_size` from the source: starting
from the date `d`, count the steps taken until the date reaches `dEnd`. -/
def stepAux (dEnd d : Date) : Nat :=
  if h : Date.blt d dEnd = true then stepAux dEnd (addYear d) + 1 else 0
termination_by dEnd.y + 1 - d.y
decreasing_by
  rw [Date.blt_iff] at h
  simp only [addYear]
  omega

/-- `step_size()` from the source: the number of annual projection steps
from the valuation date to the first boundary at or past `dEnd`. -/
def step_size (dInit dEnd : Date) : Nat := stepAux dEnd dInit

theorem stepAux_spec (dEnd : Date) :
    ∀ (fuel : Nat) (d : Date), dEnd.y + 1 - d.y ≤ fuel →
      Date.ble dEnd (date_ d (stepAux dEnd d)) = true ∧
      ∀ k, k < stepAux dEnd d → Date.blt (date_ d k) dEnd = true := by
  intro fuel
  induction fuel with
  | zero =>
      intro d hd
      have hble : Date.ble dEnd d = true := by
        rw [Date.ble_iff]; omega
      have hblt : ¬ Date.blt d dEnd = true := by
        rw [Bool.not_eq_true, Date.blt_eq_false_iff]; exact hble
      rw [stepAux, dif_neg hblt]
      exact ⟨hble, by omega⟩
  | succ fuel ih =>
      intro d hd
      rw [stepAux]
      by_cases h : Date.blt d dEnd = true
      · rw [dif_pos h]
        have hy : d.y ≤ dEnd.y := by
          rw [Date.blt_iff] at h; omega
        have hfuel : dEnd.y + 1 - (addYear d).y ≤ fuel := by
          simp only [addYear]; omega
        obtain ⟨ih1, ih2⟩ := ih (addYear d) hfuel
        constructor
        · rw [date_shift]; exact ih1
        · intro k hk
          cases k with
          | zero => exact h
          | succ k =>
              rw [date_shift]
              exact ih2 k (by omega)
      · rw [dif_neg h]
        refine ⟨?_, by omega⟩
        rw [Bool.not_eq_true, Date.blt_eq_false_iff] at h
        exact h

theorem step_size_spec (dInit dEnd : Date) :
    Date.ble dEnd (date_ dInit (step_size dInit dEnd)) = true ∧
    ∀ k, k < step_size dInit dEnd → Date.blt (date_ dInit k) dEnd = true :=
  stepAux_spec dEnd (dEnd.y + 1 - dInit.y) dInit (Nat.le_refl _)

/-- The value of `step_size` is pinned down by the least-counterexample
property: it is the unique `N` with `boundary(N) >= dEnd` and all earlier
boundaries strictly before `dEnd`. -/
theorem step_size_eq {dInit dEnd : Date} (N : Nat)
    (h1 : Date.ble dEnd (date_ dInit N) = true)
    (h2 : ∀ k, k < N → Date.blt (date_ dInit k) dEnd = true) :
    step_size dInit dEnd = N := by
  obtain ⟨g1, g2⟩ := step_size_spec dInit dEnd
  rcases Nat.lt_trichotomy (step_size dInit dEnd) N with hlt | heq | hgt
  · exact absurd (Date.blt_ble_absurd (h2 _ hlt) g1) id
  · exact heq
  · exact absurd (Date.blt_ble_absurd (g2 N hgt) h1) id

/-- A single dated cashflow of a bond (a QuantLib cashflow's date and
amount). -/
structure CashEvent where
  date : Date
  amount : ℚ
deriving DecidableEq, Repr

/-- The event-sorted relation checked by the assertion in `cashflows`. -/
def evLE (a b : CashEvent) : Prop := Date.ble a.date b.date = true

instance (a b : CashEvent) : Decidable (evLE a b) := by
  unfold evLE; infer_instance

/-- Sortedness precondition: the cashflow dates are non-decreasing. -/
def SortedEvents (l : List CashEvent) : Prop := l.Pairwise evLE

def decSortedEvents : (l : List CashEvent) → Decidable (SortedEvents l)
  | [] => isTrue List.Pairwise.nil
  | a :: t =>
      haveI : Decidable (SortedEvents t) := decSortedEvents t
      decidable_of_iff ((∀ b ∈ t, evLE a b) ∧ SortedEvents t)
        List.pairwise_cons.symm

instance (l : List CashEvent) : Decidable (SortedEvents l) :=
  decSortedEvents l

/-- The precondition relating the previously consumed cashflow (the
`leg[i-1]` that the assertion in `cashflows` looks back at) to the next
cashflow to be examined. -/
def PrevOk : Option Date → List CashEvent → Prop
  | some p, e :: _ => Date.ble p e.date = true
  | _, _ => True

/-- The inner `while` loop of `cashflows` for one projection period
`[dt, dt1)`: walk the remaining cashflows, checking the ordering
assertion against the previously consumed cashflow date `prev`, adding
amounts dated in `[dt, dt1)` to `acc`, and stopping (without consuming)
at the first cashflow dated on or after `dt1`.  An assertion failure is
`Except.error ()`. -/
def cfWhile (dt dt1 : Date) :
    List CashEvent → Option Date → ℚ →
      Except Unit (List CashEvent × Option Date × ℚ)
  | [], prev, acc => .ok ([], prev, acc)
  | e :: rest, prev, acc =>
      if prev.all (fun p => Date.ble p e.date) then
        if Date.ble dt e.date && Date.blt e.date dt1 then
          cfWhile dt dt1 rest (some e.date) (acc + e.amount)
        else if Date.ble dt1 e.date then
          .ok (e :: rest, prev, acc)
        else
          cfWhile dt dt1 rest (some e.date) acc
      else
        .error ()

/-- The outer `for t in range(step_size())` loop of `cashflows`:
`n` periods remain, the current period index is `t`. -/
def cfGo (dts : Nat → Date) (t : Nat) :
    Nat → List CashEvent → Option Date → Except Unit (List ℚ)
  | 0, _, _ => .ok []
  | n + 1, es, prev =>
      match cfWhile (dts t) (dts (t + 1)) es prev 0 with
      | .error e => .error e
      | .ok (es', prev', a) =>
          match cfGo dts (t + 1) n es' prev' with
          | .error e => .error e
          | .ok rest => .ok (a :: rest)

/-- `cashflows` from the source: bin the bond's cashflow leg into the
`N` annual periods of the calendar `dts`, failing on the ordering
assertion. -/
def cashflows (dts : Nat → Date) (leg : List CashEvent) (N : Nat) :
    Except Unit (List ℚ) :=
  cfGo dts 0 N leg none

/-- The inner `while` loop of `redemptions` for one period `[dt, dt1)`;
identical to the one in `cashflows` except that the source performs no
ordering assertion here. -/
def rdWhile (dt dt1 : Date) :
    List CashEvent → ℚ → List CashEvent × ℚ
  | [], acc => ([], acc)
  | e :: rest, acc =>
      if Date.ble dt e.date && Date.blt e.date dt1 then
        rdWhile dt dt1 rest (acc + e.amount)
      else if Date.ble dt1 e.date then
        (e :: rest, acc)
      else
        rdWhile dt dt1 rest acc

/-- The outer loop of `redemptions`. -/
def rdGo (dts : Nat → Date) (t : Nat) : Nat → List CashEvent → List ℚ
  | 0, _ => []
  | n + 1, es =>
      (rdWhile (dts t) (dts (t + 1)) es 0).2 ::
        rdGo dts (t + 1) n (rdWhile (dts t) (dts (t + 1)) es 0).1

/-- `redemptions` from the source: bin the bond's redemption leg into
the `N` annual periods of the calendar `dts`; no ordering check. -/
def redemptions (dts : Nat → Date) (leg : List CashEvent) (N : Nat) :
    List ℚ :=
  rdGo dts 0 N leg

theorem rdWhile_eq (dt dt1 : Date) (es : List CashEvent) :
    ∀ acc : ℚ,
      rdWhile dt dt1 es acc =
        (es.dropWhile (fun e => Date.blt e.date dt1),
          acc + ((((es.takeWhile (fun e => Date.blt e.date dt1)).filter
            (fun e => Date.ble dt e.date)).map CashEvent.amount).sum)) := by
  induction es with
  | nil => intro acc; simp [rdWhile]
  | cons e rest ih =>
      intro acc
      simp only [rdWhile]
      by_cases hin : (Date.ble dt e.date && Date.blt e.date dt1) = true
      · obtain ⟨hQ, hP⟩ : Date.ble dt e.date = true
            ∧ Date.blt e.date dt1 = true := by
          rw [← Bool.and_eq_true]; exact hin
        rw [if_pos hin, ih]
        simp [hP, hQ, List.filter_cons]
        ring
      · rw [if_neg hin]
        by_cases hbr : Date.ble dt1 e.date = true
        · rw [if_pos hbr]
          have hP : Date.blt e.date dt1 = false := by
            rw [Date.blt_eq_false_iff]; exact hbr
          simp [hP]
        · rw [if_neg hbr]
          have hb : Date.ble dt1 e.date = false := Bool.eq_false_iff.mpr hbr
          have hP : Date.blt e.date dt1 = true := by
            show (!(Date.ble dt1 e.date)) = true
            rw [hb]; rfl
          have hQ : Date.ble dt e.date = false := by
            rcases Bool.eq_false_or_eq_true (Date.ble dt e.date) with h | h
            · exact absurd (by rw [h, hP]; rfl) hin
            · exact h
          rw [ih]
          simp [hP, hQ, List.filter_cons]

theorem prevOk_nil (prev : Option Date) : PrevOk prev [] := by
  cases prev <;> exact trivial

theorem prevOk_of_pairwise {e : CashEvent} {rest : List CashEvent}
    (hs : SortedEvents (e :: rest)) : PrevOk (some e.date) rest := by
  cases rest with
  | nil => exact trivial
  | cons r t =>
      exact (List.pairwise_cons.mp hs).1 r (List.mem_cons_self r t)

theorem sortedEvents_tail {e : CashEvent} {rest : List CashEvent}
    (hs : SortedEvents (e :: rest)) : SortedEvents rest :=
  (List.pairwise_cons.mp hs).2

theorem mem_dropWhile_ge {dt1 : Date} :
    ∀ {es : List CashEvent}, SortedEvents es →
      ∀ e ∈ es.dropWhile (fun x => Date.blt x.date dt1),
        Date.ble dt1 e.date = true := by
  intro es
  induction es with
  | nil => intro _ e he; simp [List.dropWhile] at he
  | cons a rest ih =>
      intro hs e he
      by_cases hP : Date.blt a.date dt1 = true
      · rw [List.dropWhile_cons, if_pos hP] at he
        exact ih (sortedEvents_tail hs) e he
      · rw [List.dropWhile_cons, if_neg hP] at he
        have ha : Date.ble dt1 a.date = true := by
          rw [Bool.not_eq_true, Date.blt_eq_false_iff] at hP
          exact hP
        rcases List.mem_cons.mp he with rfl | hmem
        · exact ha
        · exact Date.ble_trans ha ((List.pairwise_cons.mp hs).1 e hmem)

/-- Generic monotone-calendar fact used by the binning proofs. -/
theorem calendar_mono_le (dts : Nat → Date)
    (hmono : ∀ k, Date.ble (dts k) (dts (k + 1)) = true) (t m : Nat) :
    Date.ble (dts t) (dts (t + m)) = true := by
  induction m with
  | zero => exact Date.ble_refl _
  | succ m ih => exact Date.ble_trans ih (hmono (t + m))

theorem rdGo_length (dts : Nat → Date) :
    ∀ (n t : Nat) (es : List CashEvent), (rdGo dts t n es).length = n := by
  intro n
  induction n with
  | zero => intro t es; rfl
  | succ n ih => intro t es; simp [rdGo, ih]

/-- Partition property of the redemption binning loop: on a sorted leg,
the vector total over periods `t .. t+n` is the total of the amounts of
exactly the events dated in `[dts t, dts (t+n))`. -/
theorem rdGo_sum (dts : Nat → Date)
    (hmono : ∀ k, Date.ble (dts k) (dts (k + 1)) = true) :
    ∀ (n t : Nat) (es : List CashEvent), SortedEvents es →
      (rdGo dts t n es).sum =
        (((es.filter (fun e =>
            Date.ble (dts t) e.date && Date.blt e.date (dts (t + n)))).map
          CashEvent.amount).sum) := by
  intro n
  induction n with
  | zero =>
      intro t es _
      have hnil : es.filter (fun e =>
          Date.ble (dts t) e.date && Date.blt e.date (dts t)) = [] := by
        apply List.filter_eq_nil_iff.mpr
        intro a _
        simp [Date.blt, Bool.and_not_self]
      rw [Nat.add_zero, hnil]
      simp [rdGo]
  | succ n ih =>
      intro t es hs
      have hidx : t + 1 + n = t + (n + 1) := by omega
      have hes' : SortedEvents
          (es.dropWhile (fun e => Date.blt e.date (dts (t + 1)))) :=
        hs.sublist (List.dropWhile_sublist _)
      have htw : ∀ e ∈ es.takeWhile (fun e => Date.blt e.date (dts (t + 1))),
          (Date.ble (dts t) e.date && Date.blt e.date (dts (t + (n + 1))))
            = Date.ble (dts t) e.date := by
        intro e he
        have hP := List.mem_takeWhile_imp he
        have h2 : Date.blt e.date (dts (t + (n + 1))) = true := by
          have := calendar_mono_le dts hmono (t + 1) n
          rw [hidx] at this
          exact Date.blt_of_blt_of_ble hP this
        rw [h2, Bool.and_true]
      have hdw : ∀ e ∈ es.dropWhile (fun e => Date.blt e.date (dts (t + 1))),
          (Date.ble (dts t) e.date && Date.blt e.date (dts (t + (n + 1))))
            = (Date.ble (dts (t + 1)) e.date
                && Date.blt e.date (dts (t + 1 + n))) := by
        intro e he
        have hge : Date.ble (dts (t + 1)) e.date = true :=
          mem_dropWhile_ge hs e he
        have hQ : Date.ble (dts t) e.date = true :=
          Date.ble_trans (hmono t) hge
        rw [hQ, hge, Bool.true_and, Bool.true_and, hidx]
      calc (rdGo dts t (n + 1) es).sum
          = (rdWhile (dts t) (dts (t + 1)) es 0).2
            + (rdGo dts (t + 1) n (rdWhile (dts t) (dts (t + 1)) es 0).1).sum := by
            simp [rdGo]
        _ = (((es.takeWhile (fun e => Date.blt e.date (dts (t + 1)))).filter
                (fun e => Date.ble (dts t) e.date)).map CashEvent.amount).sum
            + (((es.dropWhile (fun e => Date.blt e.date (dts (t + 1)))).filter
                (fun e => Date.ble (dts (t + 1)) e.date
                  && Date.blt e.date (dts (t + 1 + n)))).map
                CashEvent.amount).sum := by
            rw [rdWhile_eq, ih (t + 1) _ hes']
            simp
        _ = (((es.takeWhile (fun e => Date.blt e.date (dts (t + 1)))).filter
                (fun e => Date.ble (dts t) e.date
                  && Date.blt e.date (dts (t + (n + 1))))).map
                CashEvent.amount).sum
            + (((es.dropWhile (fun e => Date.blt e.date (dts (t + 1)))).filter
                (fun e => Date.ble (dts t) e.date
                  && Date.blt e.date (dts (t + (n + 1))))).map
                CashEvent.amount).sum := by
            rw [List.filter_congr htw, List.filter_congr hdw]
        _ = ((es.filter (fun e => Date.ble (dts t) e.date
                && Date.blt e.date (dts (t + (n + 1))))).map
              CashEvent.amount).sum := by
            conv_rhs => rw [← List.takeWhile_append_dropWhile
              (fun e => Date.blt e.date (dts (t + 1))) es]
            rw [List.filter_append, List.map_append, List.sum_append]

/-- On a sorted leg the ordering assertion in the inner loop of
`cashflows` never fires, and the loop computes exactly what the
(check-free) inner loop of `redemptions` computes. -/
theorem cfWhile_ok (dt dt1 : Date) :
    ∀ (es : List CashEvent) (prev : Option Date) (acc : ℚ),
      SortedEvents es → PrevOk prev es →
      ∃ prev', cfWhile dt dt1 es prev acc =
          .ok ((rdWhile dt dt1 es acc).1, prev', (rdWhile dt dt1 es acc).2)
        ∧ PrevOk prev' (rdWhile dt dt1 es acc).1 := by
  intro es
  induction es with
  | nil =>
      intro prev acc _ _
      exact ⟨prev, rfl, prevOk_nil prev⟩
  | cons e rest ih =>
      intro prev acc hs hp
      have hall : prev.all (fun p => Date.ble p e.date) = true := by
        cases prev with
        | none => rfl
        | some p => exact hp
      simp only [cfWhile, rdWhile, if_pos hall]
      by_cases hin : (Date.ble dt e.date && Date.blt e.date dt1) = true
      · simp only [if_pos hin]
        exact ih (some e.date) (acc + e.amount) (sortedEvents_tail hs)
          (prevOk_of_pairwise hs)
      · simp only [if_neg hin]
        by_cases hbr : Date.ble dt1 e.date = true
        · simp only [if_pos hbr]
          exact ⟨prev, rfl, hp⟩
        · simp only [if_neg hbr]
          exact ih (some e.date) acc (sortedEvents_tail hs)
            (prevOk_of_pairwise hs)

/-- On a sorted leg, `cashflows`'s loop succeeds and produces the same
vector as `redemptions`'s loop. -/
theorem cfGo_ok (dts : Nat → Date) :
    ∀ (n t : Nat) (es : List CashEvent) (prev : Option Date),
      SortedEvents es → PrevOk prev es →
      cfGo dts t n es prev = .ok (rdGo dts t n es) := by
  intro n
  induction n with
  | zero => intro t es prev _ _; rfl
  | succ n ih =>
      intro t es prev hs hp
      obtain ⟨prev', h1, h2⟩ := cfWhile_ok (dts t) (dts (t + 1)) es prev 0 hs hp
      have hs' : SortedEvents (rdWhile (dts t) (dts (t + 1)) es 0).1 := by
        rw [rdWhile_eq]
        exact hs.sublist (List.dropWhile_sublist _)
      simp only [cfGo, rdGo, h1, ih (t + 1)
        (rdWhile (dts t) (dts (t + 1)) es 0).1 prev' hs' h2]

/-- `cashflows_total()` from the source: for each period `t`, sum the
period-`t` entry of the per-bond vector `cfv b` over all bonds, in table
order. -/
def cashflows_total {β : Type} (N : Nat) (bonds : List β)
    (cfv : β → List ℚ) : List ℚ :=
  (List.range N).map fun t =>
    bonds.foldl (fun acc b => acc + (cfv b).getD t 0) 0

/-- `redemptions_total()` from the source: same double loop as
`cashflows_total`, over the per-bond redemption vectors. -/
def redemptions_total {β : Type} (N : Nat) (bonds : List β)
    (rdv : β → List ℚ) : List ℚ :=
  (List.range N).map fun t =>
    bonds.foldl (fun acc b => acc + (rdv b).getD t 0) 0

/-- Modelled from the spec's words for comparison with the code:
the Portfolio Aggregate Vector as an element-wise (`zipWith`) sum of the
per-bond vectors, a vector of `N` zeros for an empty bond table. -/
def elementwiseTotal {β : Type} (N : Nat) (bonds : List β)
    (f : β → List ℚ) : List ℚ :=
  bonds.foldr (fun b acc => List.zipWith (· + ·) (f b) acc)
    (List.replicate N 0)

/-- `market_values()` from the source, with the QuantLib bond pricing
(`notional`, `cleanPrice`) abstracted as oracle functions. -/
def market_values {β : Type} (bonds : List β)
    (notional cleanPrice : β → ℚ) : List ℚ :=
  bonds.map fun b => notional b * cleanPrice b / 100

/-- Coupon frequency selected by `schedule` for a bond. -/
inductive Frequency where
  | Semiannual
  | Annual
deriving DecidableEq, Repr

/-- The tenor-to-frequency choice made inside `schedule` in the source:
`ql.Semiannual if bond_data.loc[bond_id]['tenor'] == '6Y' else ql.Annual`. -/
def scheduleFrequency (tenor : String) : Frequency :=
  if tenor = "6Y" then Frequency.Semiannual else Frequency.Annual

/-- The tenor column of the sample rows of `bond_data` shown in the
module docstring (bonds 1-5): semiannual sample bonds carry tenor `6M`. -/
def sampleTenors : List String := ["1Y", "1Y", "6M", "1Y", "6M"]

theorem redemptions_total_eq {β : Type} (N : Nat) (bonds : List β)
    (f : β → List ℚ) :
    redemptions_total N bonds f = cashflows_total N bonds f := rfl

theorem foldl_add_eq {β : Type} (g : β → ℚ) :
    ∀ (l : List β) (a : ℚ),
      l.foldl (fun acc b => acc + g b) a = a + (l.map g).sum := by
  intro l
  induction l with
  | nil => intro a; simp
  | cons b bs ih =>
      intro a
      simp only [List.foldl_cons, List.map_cons, List.sum_cons, ih]
      ring

theorem elementwiseTotal_length {β : Type} {N : Nat} {f : β → List ℚ}
    (hf : ∀ b, (f b).length = N) :
    ∀ bonds : List β, (elementwiseTotal N bonds f).length = N := by
  intro bonds
  induction bonds with
  | nil => simp [elementwiseTotal]
  | cons b bs ih =>
      simp only [elementwiseTotal, List.foldr_cons] at ih ⊢
      rw [List.length_zipWith, ih, hf b, Nat.min_self]

theorem zipWith_map_range (v : List ℚ) (N : Nat) (hv : v.length = N)
    (g : Nat → ℚ) :
    List.zipWith (· + ·) v ((List.range N).map g) =
      (List.range N).map (fun t => v.getD t 0 + g t) := by
  apply List.ext_getElem
  · simp [hv]
  · intro i h1 h2
    have hi : i < v.length := by
      simp only [List.length_zipWith, List.length_map, List.length_range,
        lt_min_iff] at h1
      exact h1.1
    rw [List.getElem_zipWith]
    simp only [List.getElem_map, List.getElem_range]
    rw [List.getD_eq_getElem v 0 hi]

theorem cashflows_total_eq_elementwise {β : Type} (N : Nat)
    (f : β → List ℚ) (hf : ∀ b, (f b).length = N) :
    ∀ bonds : List β,
      cashflows_total N bonds f = elementwiseTotal N bonds f := by
  intro bonds
  induction bonds with
  | nil => simp [cashflows_total, elementwiseTotal, List.map_const']
  | cons b bs ih =>
      have step : cashflows_total N (b :: bs) f =
          (List.range N).map
            (fun t => (f b).getD t 0 +
              bs.foldl (fun acc c => acc + (f c).getD t 0) 0) := by
        unfold cashflows_total
        apply List.map_congr_left
        intro t _
        rw [List.foldl_cons, foldl_add_eq, foldl_add_eq]
        ring
      rw [step]
      show _ = elementwiseTotal N (b :: bs) f
      simp only [elementwiseTotal, List.foldr_cons]
      rw [show (List.foldr (fun c acc => List.zipWith (· + ·) (f c) acc)
          (List.replicate N 0) bs) = elementwiseTotal N bs f from rfl, ← ih]
      unfold cashflows_total
      rw [zipWith_map_range (f b) N (hf b)]

theorem cashflows_total_perm {β : Type} (N : Nat) (f : β → List ℚ)
    {bonds bonds2 : List β} (hp : bonds.Perm bonds2) :
    cashflows_total N bonds f = cashflows_total N bonds2 f := by
  unfold cashflows_total
  apply List.map_congr_left
  intro t _
  rw [foldl_add_eq, foldl_add_eq, (hp.map _).sum_eq]

theorem cashflows_total_nil {β : Type} (N : Nat) (f : β → List ℚ) :
    cashflows_total N ([] : List β) f = List.replicate N 0 := by
  simp [cashflows_total, List.map_const']

/-- C1: for every cash-event sequence sorted ascending by date and every
period calendar of length `N` (annual boundaries `date_ dInit`), binning
by `cashflows` is total (it returns a vector, no assertion error) and
partition-preserving: the vector has length `N` and its sum equals the
sum of the amounts of exactly those events dated in
`[boundary(0), boundary(N))`; all other events contribute nothing. -/
theorem claim_cashflows_partition (dInit : Date) (N : Nat)
    (leg : List CashEvent) (hs : SortedEvents leg) :
    ∃ v, cashflows (date_ dInit) leg N = Except.ok v ∧ v.length = N ∧
      v.sum = ((leg.filter (fun e =>
          Date.ble (date_ dInit 0) e.date
            && Date.blt e.date (date_ dInit N))).map
        CashEvent.amount).sum := by
  refine ⟨redemptions (date_ dInit) leg N, ?_, ?_, ?_⟩
  · exact cfGo_ok (date_ dInit) N 0 leg none hs (prevOk_nil none)
  · exact rdGo_length (date_ dInit) N 0 leg
  · have h := rdGo_sum (date_ dInit)
      (fun k => Date.ble_of_blt (date_mono_succ dInit k)) N 0 leg hs
    simpa using h

/-- Witness for C1 at a concrete sorted leg and calendar. -/
theorem claim_cashflows_partition_witness :
    ∃ v, cashflows (date_ ⟨2022, 1, 1⟩)
        [⟨⟨2023, 6, 15⟩, 1000⟩] 3 = Except.ok v ∧ v.length = 3 ∧
      v.sum = (([⟨⟨2023, 6, 15⟩, (1000 : ℚ)⟩].filter (fun e =>
          Date.ble (date_ ⟨2022, 1, 1⟩ 0) e.date
            && Date.blt e.date (date_ ⟨2022, 1, 1⟩ 3))).map
        CashEvent.amount).sum :=
  claim_cashflows_partition ⟨2022, 1, 1⟩ 3 [⟨⟨2023, 6, 15⟩, 1000⟩]
    (by decide)

/-- C2 counterexample: on the out-of-order sequence
`[(2023-01-01, 5), (2022-06-01, 5)]` (with valuation date 2022-01-01 and
three annual periods), `redemptions` does not raise any ordering
violation: it returns the vector `[0, 5, 0]`, whose total 5 moreover
differs from the total 10 of the event amounts — a silently
mis-bucketed result, refuting the claim that binning via `redemptions`
fails fast on unsorted input. -/
theorem claim_ordering_counterexample :
    ¬ SortedEvents [⟨⟨2023, 1, 1⟩, (5 : ℚ)⟩, ⟨⟨2022, 6, 1⟩, 5⟩] ∧
    redemptions (date_ ⟨2022, 1, 1⟩)
      [⟨⟨2023, 1, 1⟩, 5⟩, ⟨⟨2022, 6, 1⟩, 5⟩] 3 = [0, 5, 0] ∧
    ([0, 5, 0] : List ℚ).sum ≠
      (([⟨⟨2023, 1, 1⟩, (5 : ℚ)⟩, ⟨⟨2022, 6, 1⟩, 5⟩].map
        CashEvent.amount).sum) := by
  refine ⟨by decide, ?_, by norm_num⟩
  norm_num [redemptions, rdGo, rdWhile, date_, addYear, daysInMonth,
    isLeapYear, Date.ble, Date.blt]

/-- C2 amended: on the spec's out-of-order scenario
`[(2023-01-01, 5), (2022-06-01, 5)]` (valuation date 2022-01-01, three
annual periods, a calendar that reaches the inverted pair), `cashflows`
fails fast through its ordering assertion, while `redemptions` performs
no ordering check and returns the mis-bucketed vector `[0, 5, 0]`
without raising. -/
theorem claim_ordering_amended :
    cashflows (date_ ⟨2022, 1, 1⟩)
      [⟨⟨2023, 1, 1⟩, 5⟩, ⟨⟨2022, 6, 1⟩, 5⟩] 3 = Except.error () ∧
    redemptions (date_ ⟨2022, 1, 1⟩)
      [⟨⟨2023, 1, 1⟩, 5⟩, ⟨⟨2022, 6, 1⟩, 5⟩] 3 = [0, 5, 0] := by
  constructor
  · norm_num [cashflows, cfGo, cfWhile, Option.all, date_, addYear,
      daysInMonth, isLeapYear, Date.ble, Date.blt]
  · norm_num [redemptions, rdGo, rdWhile, date_, addYear, daysInMonth,
      isLeapYear, Date.ble, Date.blt]

/-- C3: `step_size` returns the unique smallest `N` with
`boundary(N) >= dEnd` — `boundary(step_size) >= dEnd` and every earlier
boundary (in particular `boundary(N-1)` when `N > 0`) is strictly before
`dEnd` — and an end date on or before the valuation date yields `N = 0`. -/
theorem claim_step_size_least (dInit dEnd : Date) :
    Date.ble dEnd (date_ dInit (step_size dInit dEnd)) = true ∧
    (∀ k, k < step_size dInit dEnd →
      Date.blt (date_ dInit k) dEnd = true) ∧
    (Date.ble dEnd dInit = true → step_size dInit dEnd = 0) := by
  obtain ⟨h1, h2⟩ := step_size_spec dInit dEnd
  refine ⟨h1, h2, ?_⟩
  intro hle
  exact step_size_eq 0 (by simpa [date_] using hle)
    (fun k hk => absurd hk (Nat.not_lt_zero k))

/-- Witness for C3 at valuation date 2022-01-01, end date 2025-01-01. -/
theorem claim_step_size_least_witness :
    Date.ble ⟨2025, 1, 1⟩
        (date_ ⟨2022, 1, 1⟩ (step_size ⟨2022, 1, 1⟩ ⟨2025, 1, 1⟩)) = true ∧
    (∀ k, k < step_size ⟨2022, 1, 1⟩ ⟨2025, 1, 1⟩ →
      Date.blt (date_ ⟨2022, 1, 1⟩ k) ⟨2025, 1, 1⟩ = true) ∧
    (Date.ble ⟨2025, 1, 1⟩ ⟨2022, 1, 1⟩ = true →
      step_size ⟨2022, 1, 1⟩ ⟨2025, 1, 1⟩ = 0) :=
  claim_step_size_least ⟨2022, 1, 1⟩ ⟨2025, 1, 1⟩

/-- C4: `cashflows_total` and `redemptions_total` equal the element-wise
sum of the per-bond vectors, are invariant under reordering of the bond
table, and return a vector of `N` zeros for an empty bond table. -/
theorem claim_portfolio_aggregation {β : Type} (N : Nat)
    (f : β → List ℚ) (bonds bonds2 : List β)
    (hf : ∀ b, (f b).length = N) (hperm : bonds.Perm bonds2) :
    cashflows_total N bonds f = elementwiseTotal N bonds f ∧
    redemptions_total N bonds f = elementwiseTotal N bonds f ∧
    cashflows_total N bonds f = cashflows_total N bonds2 f ∧
    redemptions_total N bonds f = redemptions_total N bonds2 f ∧
    cashflows_total N ([] : List β) f = List.replicate N 0 ∧
    redemptions_total N ([] : List β) f = List.replicate N 0 := by
  refine ⟨cashflows_total_eq_elementwise N f hf bonds, ?_, ?_, ?_, ?_, ?_⟩
  · rw [redemptions_total_eq]
    exact cashflows_total_eq_elementwise N f hf bonds
  · exact cashflows_total_perm N f hperm
  · rw [redemptions_total_eq, redemptions_total_eq]
    exact cashflows_total_perm N f hperm
  · exact cashflows_total_nil N f
  · rw [redemptions_total_eq]
    exact cashflows_total_nil N f

/-- Witness for C4 at a concrete two-bond table and its reversal. -/
theorem claim_portfolio_aggregation_witness :
    cashflows_total 2 [1, 2] (fun b : Nat => [(b : ℚ), 0])
        = elementwiseTotal 2 [1, 2] (fun b : Nat => [(b : ℚ), 0]) ∧
    redemptions_total 2 [1, 2] (fun b : Nat => [(b : ℚ), 0])
        = elementwiseTotal 2 [1, 2] (fun b : Nat => [(b : ℚ), 0]) ∧
    cashflows_total 2 [1, 2] (fun b : Nat => [(b : ℚ), 0])
        = cashflows_total 2 [2, 1] (fun b : Nat => [(b : ℚ), 0]) ∧
    redemptions_total 2 [1, 2] (fun b : Nat => [(b : ℚ), 0])
        = redemptions_total 2 [2, 1] (fun b : Nat => [(b : ℚ), 0]) ∧
    cashflows_total 2 ([] : List Nat) (fun b : Nat => [(b : ℚ), 0])
        = List.replicate 2 0 ∧
    redemptions_total 2 ([] : List Nat) (fun b : Nat => [(b : ℚ), 0])
        = List.replicate 2 0 :=
  claim_portfolio_aggregation 2 (fun b : Nat => [(b : ℚ), 0]) [1, 2] [2, 1]
    (fun _ => rfl) (List.Perm.swap 2 1 [])

/-- C5: with valuation date 2022-01-01 and end date 2025-01-01 the
period calendar is `[2022-01-01, 2023-01-01, 2024-01-01, 2025-01-01]`
with `N = 3`, and a bond whose only redemption event is dated 2023-06-15
with amount 1000 yields the period amount vector `[0, 1000, 0]`. -/
theorem claim_boundary_scenario :
    date_ ⟨2022, 1, 1⟩ 0 = ⟨2022, 1, 1⟩ ∧
    date_ ⟨2022, 1, 1⟩ 1 = ⟨2023, 1, 1⟩ ∧
    date_ ⟨2022, 1, 1⟩ 2 = ⟨2024, 1, 1⟩ ∧
    date_ ⟨2022, 1, 1⟩ 3 = ⟨2025, 1, 1⟩ ∧
    step_size ⟨2022, 1, 1⟩ ⟨2025, 1, 1⟩ = 3 ∧
    redemptions (date_ ⟨2022, 1, 1⟩) [⟨⟨2023, 6, 15⟩, 1000⟩]
      (step_size ⟨2022, 1, 1⟩ ⟨2025, 1, 1⟩) = [0, 1000, 0] := by
  have h3 : step_size ⟨2022, 1, 1⟩ ⟨2025, 1, 1⟩ = 3 :=
    step_size_eq 3 (by decide) (by decide)
  rw [h3]
  refine ⟨by decide, by decide, by decide, by decide, rfl, ?_⟩
  norm_num [redemptions, rdGo, rdWhile, date_, addYear, daysInMonth,
    isLeapYear, Date.ble, Date.blt]

/-- C6: when the end date equals the valuation date, `step_size` returns
`N = 0`, and `cashflows` and `redemptions` both return the empty vector
for every bond, regardless of the bond's event sequence. -/
theorem claim_degenerate_calendar (dInit : Date) (leg : List CashEvent) :
    step_size dInit dInit = 0 ∧
    cashflows (date_ dInit) leg (step_size dInit dInit) = Except.ok [] ∧
    redemptions (date_ dInit) leg (step_size dInit dInit) = [] := by
  have h0 : step_size dInit dInit = 0 :=
    step_size_eq 0 (by simpa [date_] using Date.ble_refl dInit)
      (fun k hk => absurd hk (Nat.not_lt_zero k))
  rw [h0]
  exact ⟨rfl, rfl, rfl⟩

/-- C7: `date_(0)` is the configured valuation date, `date_(t+1)` is
`date_(t)` plus exactly one year, and the boundary sequence is strictly
increasing. -/
theorem claim_calendar_annual (dInit : Date) (t : Nat) :
    date_ dInit 0 = dInit ∧
    date_ dInit (t + 1) = addYear (date_ dInit t) ∧
    Date.blt (date_ dInit t) (date_ dInit (t + 1)) = true :=
  ⟨rfl, rfl, date_mono_succ dInit t⟩

/-- C8: `market_values` returns one number per bond in the table, and
the entry for each bond equals `notional(bond) * clean_price(bond) / 100`. -/
theorem claim_market_values {β : Type} (bonds : List β)
    (notional cleanPrice : β → ℚ) :
    (market_values bonds notional cleanPrice).length = bonds.length ∧
    ∀ (i : Nat) (h : i < bonds.length),
      (market_values bonds notional cleanPrice).getD i 0 =
        notional (bonds.get ⟨i, h⟩) * cleanPrice (bonds.get ⟨i, h⟩) / 100 := by
  constructor
  · simp [market_values]
  · intro i h
    have hlen : i < (market_values bonds notional cleanPrice).length := by
      simpa [market_values] using h
    rw [List.getD_eq_getElem _ 0 hlen]
    simp [market_values]

/-- Witness for C8 at a one-bond table. -/
theorem claim_market_values_witness :
    (market_values [(0 : Nat)] (fun _ => (200 : ℚ))
        (fun _ => (50 : ℚ))).getD 0 0 = (200 : ℚ) * 50 / 100 :=
  (claim_market_values [(0 : Nat)] (fun _ => (200 : ℚ))
    (fun _ => (50 : ℚ))).2 0 (by decide)

/-- C9 (implicit): `schedule` selects the semiannual coupon frequency
only when the tenor string is exactly `6Y`; every other tenor —
including the `6M` value that the sample bond data uses for its
semiannual bonds — yields an annual schedule. -/
theorem claim_schedule_tenor :
    scheduleFrequency "6Y" = Frequency.Semiannual ∧
    (∀ s : String, s ≠ "6Y" → scheduleFrequency s = Frequency.Annual) ∧
    scheduleFrequency "6M" = Frequency.Annual ∧
    ∀ s ∈ sampleTenors, scheduleFrequency s = Frequency.Annual := by
  refine ⟨rfl, ?_, rfl, ?_⟩
  · intro s hs
    simp [scheduleFrequency, hs]
  · intro s hs
    fin_cases hs <;> rfl

/-- Witness for C9 at sample tenor values. -/
theorem claim_schedule_tenor_witness :
    scheduleFrequency "1Y" = Frequency.Annual ∧
    scheduleFrequency "6M" = Frequency.Annual :=
  ⟨claim_schedule_tenor.2.1 "1Y" (by decide),
    claim_schedule_tenor.2.2.2 "6M" (by simp [sampleTenors])⟩

/-- C10 (implicit): the `while` loop of `step_size` terminates for every
valuation/end date pair — the boundary dates strictly increase step by
step, and some boundary reaches the end date (the loop guard eventually
fails); `date_` itself is a total function of the index by structural
recursion. -/
theorem claim_step_size_terminates (dInit dEnd : Date) :
    (∀ t, Date.blt (date_ dInit t) (date_ dInit (t + 1)) = true) ∧
    ∃ t, Date.ble dEnd (date_ dInit t) = true :=
  ⟨fun t => date_mono_succ dInit t,
    ⟨step_size dInit dEnd, (step_size_spec dInit dEnd).1⟩⟩

end BasicBonds
